import Mathlib

/-!
Verification of `oplot/util.py`'s `fixed_step_chunker`.

The source function has two branches:
* an indexable-source branch (the input has `__getitem__`/`__len__`): it slices a
  window `it[start_at:stop_at]`, computes a closed-form number of full chunks and
  yields slices `it[bt:bt+chk_size]` with `bt` advancing by `chk_step`;
* a cursor-source branch (plain iterator): it buffers chunks from an `islice` of
  the source, with separate loops for `chk_step < chk_size` and `chk_step >= chk_size`,
  and a shared tail-trimming loop.

Both branches are embedded below as executable Lean functions over `List α`
(nonnegative `start_at`/`stop_at`; the spec declares negative offsets a non-goal).
All loops are expressed through one structurally recursive fuelled combinator
`whileEmit`, with fuel chosen at each call site to dominate a decreasing measure;
lemmas `whileEmit_congr`/`whileEmit_unfold` recover the exact loop recurrences,
so no behaviour depends on the particular fuel value.
-/

namespace Oplot

/-- Python exceptions that `fixed_step_chunker` can actually raise on nonnegative
integer parameters: `chk_step = 0` makes the indexable branch evaluate
`(len(it) - chk_size) / chk_step`, a division by zero. -/
inductive PyErr : Type
  | zeroDivisionError
deriving DecidableEq, Repr

/-- Python list slice `l[a:b]` for nonnegative bounds `a`, `b`:
the elements whose index lies in `[a, b)`, truncated at the end of the list. -/
def pySlice {α : Type} (l : List α) (a b : Nat) : List α :=
  (l.take b).drop a

/-- `itertools.islice(it, start, stop)` over a finite source, `stop = none`
meaning unbounded: the elements whose index lies in `[start, stop)`. -/
def islice2 {α : Type} (l : List α) (start : Nat) (stop : Option Nat) : List α :=
  match stop with
  | none => l.drop start
  | some b => (l.take b).drop start

/-- Generic fuelled while-loop: starting from state `s`, while `cond s` holds,
record the state and move to `next s`.  Returns the recorded states and the
final state.  The fuel only serves to make the recursion structural; every use
below supplies fuel that dominates a strictly decreasing measure, and the
`whileEmit_congr`/`whileEmit_unfold` lemmas show the result is then
fuel-independent and satisfies the exact loop recurrence. -/
def whileEmit {σ : Type} (cond : σ → Bool) (next : σ → σ) : Nat → σ → List σ × σ
  | 0, s => ([], s)
  | fuel+1, s =>
    if cond s then
      let r := whileEmit cond next fuel (next s)
      (s :: r.1, r.2)
    else ([], s)

theorem whileEmit_congr {σ : Type} (cond : σ → Bool) (next : σ → σ) (μ : σ → Nat)
    (hdec : ∀ s, cond s = true → μ (next s) < μ s) :
    ∀ (f1 f2 : Nat) (s : σ), μ s ≤ f1 → μ s ≤ f2 →
      whileEmit cond next f1 s = whileEmit cond next f2 s := by
  intro f1
  induction f1 with
  | zero =>
    intro f2 s h1 h2
    cases f2 with
    | zero => rfl
    | succ f2 =>
      simp only [whileEmit]
      cases hc : cond s with
      | false => simp
      | true => exact absurd (hdec s hc) (by omega)
  | succ f1 ih =>
    intro f2 s h1 h2
    cases f2 with
    | zero =>
      simp only [whileEmit]
      cases hc : cond s with
      | false => simp
      | true => exact absurd (hdec s hc) (by omega)
    | succ f2 =>
      simp only [whileEmit]
      cases hc : cond s with
      | false => simp
      | true =>
        have hn := hdec s hc
        simp only [if_true]
        rw [ih f2 (next s) (by omega) (by omega)]

theorem whileEmit_unfold {σ : Type} (cond : σ → Bool) (next : σ → σ) (μ : σ → Nat)
    (hdec : ∀ s, cond s = true → μ (next s) < μ s) (f : Nat) (s : σ) (hf : μ s ≤ f) :
    whileEmit cond next f s =
      if cond s then
        ((s :: (whileEmit cond next (μ (next s)) (next s)).1),
          (whileEmit cond next (μ (next s)) (next s)).2)
      else ([], s) := by
  cases f with
  | zero =>
    cases hc : cond s with
    | false => simp [whileEmit]
    | true => exact absurd (hdec s hc) (by omega)
  | succ f =>
    simp only [whileEmit]
    cases hc : cond s with
    | false => simp
    | true =>
      have hn := hdec s hc
      simp only [if_true]
      rw [whileEmit_congr cond next μ hdec f (μ (next s)) (next s) (by omega) (by omega)]

/-! ## Indexable-source branch (util.py lines 193-214) -/

/-- Window resolution of the indexable branch (util.py lines 194-199):
`stop_at` defaults to `len(it)` and is clamped to `min(len(it), stop_at)`,
`start_at` defaults to `0`, and the window is the slice `it[start_at:stop_at]`. -/
def pyWindow {α : Type} (it : List α) (start_at stop_at : Option Nat) : List α :=
  pySlice it (start_at.getD 0) (min it.length (stop_at.getD it.length))

/-- Source line 201: `n_full_chk_to_return = max(int((it_minus_chk_length / chk_step) + 1), 0)`
with `it_minus_chk_length = len(it) - chk_size` (`len(it)` is the window length `L`).
Under exact arithmetic, Python's `int(x/s + 1)` for `s > 0` is truncation toward
zero of `(x + s)/s`, i.e. `Int.tdiv (x + s) s`. -/
def n_full_chk_to_return (L chk_size chk_step : Nat) : Int :=
  max (Int.tdiv ((L : Int) - chk_size + chk_step) chk_step) 0

/-- Source lines 202-208: the full-chunk loop of the indexable branch.  The
cursor `bt` starts at `0` and advances by `chk_step` per iteration, with
`tt = bt + chk_size` throughout, so the `i`-th yield is `it[i*chk_step : i*chk_step + chk_size]`. -/
def fullChunksList {α : Type} (w : List α) (chk_size chk_step n : Nat) : List (List α) :=
  (List.range n).map (fun i => pySlice w (i * chk_step) (i * chk_step + chk_size))

/-- Source lines 210-214: the tail loop of the indexable branch,
`while len(it[bt:tt]) > 0: yield it[bt:tt]; bt += chk_step; tt += chk_step`
(with `tt = bt + chk_size` as an invariant), started at cursor position `bt`. -/
def tailChunksList {α : Type} (w : List α) (chk_size chk_step bt : Nat) : List (List α) :=
  ((whileEmit (fun b => decide (0 < (pySlice w b (b + chk_size)).length))
      (fun b => b + chk_step) (w.length + 1) bt).1).map
    (fun b => pySlice w b (b + chk_size))

/-- The indexable-source branch of `fixed_step_chunker` (util.py lines 186-214),
with the output generator materialised as a list.  With `chk_step = 0`
(after defaulting), Python raises `ZeroDivisionError` at line 201. -/
def fixed_step_chunker_list {α : Type} (it : List α) (chk_size : Nat)
    (chk_step start_at stop_at : Option Nat) (return_tail : Bool) :
    Except PyErr (List (List α)) :=
  let step := chk_step.getD chk_size
  let w := pyWindow it start_at stop_at
  if step = 0 then Except.error PyErr.zeroDivisionError
  else
    let n := (n_full_chk_to_return w.length chk_size step).toNat
    Except.ok (fullChunksList w chk_size step n ++
      if return_tail then tailChunksList w chk_size step (n * step) else [])

/-! ## Cursor-source branch (util.py lines 217-239) -/

/-- Source lines 220-225 (`chk_step < chk_size` case): buffer state is the pair
`(chk, it)` of the current chunk buffer and the unconsumed remainder of the
windowed iterator.  `while len(chk) == chk_size: yield chk;
chk = chk[chk_step:] + list(islice(it, chk_step))`, where `list(islice(it, n))`
takes the next `n` elements and leaves `it` advanced by `n` (or exhausted).
Returns the yields and the final buffer. -/
def chunkLoopLT {α : Type} (chk_size chk_step : Nat) (chk it : List α) :
    List (List α) × List α :=
  let r := whileEmit (fun s => s.1.length == chk_size)
      (fun s => (s.1.drop chk_step ++ s.2.take chk_step, s.2.drop chk_step))
      (chk.length + it.length + 1) (chk, it)
  (r.1.map Prod.fst, r.2.1)

/-- Source lines 227-234 (`chk_step >= chk_size` case): with `gap = chk_step - chk_size`,
`while len(chk) == chk_size: yield chk; chk = list(islice(it, gap, gap + chk_size))`,
where `list(islice(it, gap, gap + chk_size))` consumes up to `gap + chk_size`
elements of `it` and keeps those after the first `gap`.
Returns the yields and the final buffer. -/
def chunkLoopGE {α : Type} (chk_size chk_step : Nat) (chk it : List α) :
    List (List α) × List α :=
  let gap := chk_step - chk_size
  let r := whileEmit (fun s => s.1.length == chk_size)
      (fun s => ((s.2.take (gap + chk_size)).drop gap, s.2.drop (gap + chk_size)))
      (chk.length + it.length + 1) (chk, it)
  (r.1.map Prod.fst, r.2.1)

/-- Source lines 236-239: the tail loop of the cursor branch,
`while len(chk) > 0: yield chk; chk = chk[chk_step:]`. -/
def tailTrimLoop {α : Type} (chk_step : Nat) (chk : List α) : List (List α) :=
  (whileEmit (fun c => !c.isEmpty) (fun c => c.drop chk_step) (chk.length + 1) chk).1

/-- The cursor-source branch of `fixed_step_chunker` (util.py lines 186-190 and
217-239), with the output generator materialised as a list.  The windowed
iterator is `islice(it, start_at, stop_at)`; the initial buffer is
`list(islice(it, chk_size))`.  (With `chk_step = 0` or `chk_size = 0` the Python
loops do not terminate; all theorems below assume positive parameters.) -/
def fixed_step_chunker_iter {α : Type} (it : List α) (chk_size : Nat)
    (chk_step start_at stop_at : Option Nat) (return_tail : Bool) :
    List (List α) :=
  let step := chk_step.getD chk_size
  let w := islice2 it (start_at.getD 0) stop_at
  let r := if step < chk_size then
      chunkLoopLT chk_size step (w.take chk_size) (w.drop chk_size)
    else
      chunkLoopGE chk_size step (w.take chk_size) (w.drop chk_size)
  r.1 ++ if return_tail then tailTrimLoop step r.2 else []

/-! ## Basic facts about slices and the window -/

theorem length_pySlice {α : Type} (l : List α) (a b : Nat) :
    (pySlice l a b).length = min b l.length - a := by
  simp [pySlice]

theorem pySlice_zero {α : Type} (l : List α) (b : Nat) : pySlice l 0 b = l.take b := by
  simp [pySlice]

theorem pySlice_drop_take {α : Type} (l : List α) (a n : Nat) :
    pySlice l a (a + n) = (l.drop a).take n := by
  unfold pySlice
  rw [List.drop_take]
  congr 1
  omega

theorem pySlice_shift {α : Type} (l : List α) (d a b : Nat) :
    pySlice (l.drop d) a b = pySlice l (d + a) (d + b) := by
  unfold pySlice
  have h1 : (l.drop d).take b = (l.take (d + b)).drop d := by
    rw [List.drop_take]
    congr 1
    omega
  rw [h1, List.drop_drop]

/-- Both branches operate on the same logical window: the indexable branch's
clamped slice `it[start_at:min(len(it), stop_at)]` equals the cursor branch's
`islice(it, start_at, stop_at)`. -/
theorem pyWindow_eq_islice2 {α : Type} (it : List α) (sa so : Option Nat) :
    pyWindow it sa so = islice2 it (sa.getD 0) so := by
  cases so with
  | none => simp [pyWindow, islice2, pySlice]
  | some b =>
    simp only [pyWindow, islice2, Option.getD_some, pySlice]
    congr 1
    rw [List.take_eq_take]
    omega

/-! ## The closed-form full-chunk count -/

/-- Closed form of `n_full_chk_to_return` over naturals:
`(L - chk_size) / chk_step + 1` full chunks when `chk_size ≤ L`, else `0`. -/
def nFullSpec (L chk_size chk_step : Nat) : Nat :=
  if chk_size ≤ L then (L - chk_size) / chk_step + 1 else 0

theorem nFullSpec_succ (L size step : Nat) (hsize : 0 < size) (hstep : 0 < step)
    (hL : size ≤ L) :
    nFullSpec L size step = nFullSpec (L - step) size step + 1 := by
  unfold nFullSpec
  rw [if_pos hL]
  by_cases h2 : size ≤ L - step
  · rw [if_pos h2]
    have hs : step ≤ L - size := by omega
    rw [Nat.div_eq_sub_div hstep hs]
    have h3 : L - size - step = L - step - size := by omega
    rw [h3]
  · rw [if_neg h2]
    have h3 : L - size < step := by omega
    rw [Nat.div_eq_of_lt h3]

theorem n_full_toNat (L size step : Nat) (hstep : 0 < step) :
    (n_full_chk_to_return L size step).toNat = nFullSpec L size step := by
  unfold n_full_chk_to_return nFullSpec
  by_cases hL : size ≤ L
  · rw [if_pos hL]
    have h1 : (L : Int) - size + step = ((L - size + step : Nat) : Int) := by omega
    rw [h1]
    have h2 : Int.tdiv ((L - size + step : Nat) : Int) (step : Int) =
        (((L - size + step) / step : Nat) : Int) := rfl
    rw [h2, Nat.add_div_right _ hstep, max_eq_left (by positivity)]
    exact Int.toNat_ofNat _
  · rw [if_neg hL]
    rcases le_or_lt ((L : Int) - size + step) 0 with hneg | hpos
    · have h1 : (L : Int) - size + step = -(((size - (L + step) : Nat)) : Int) := by omega
      rw [h1, Int.neg_tdiv]
      have h2 : Int.tdiv (((size - (L + step) : Nat)) : Int) (step : Int) =
          ((((size - (L + step)) / step : Nat)) : Int) := rfl
      rw [h2, max_eq_right (neg_nonpos.mpr (Int.natCast_nonneg _))]
      rfl
    · have h1 : (L : Int) - size + step = ((L + step - size : Nat) : Int) := by omega
      rw [h1]
      have h2 : Int.tdiv ((L + step - size : Nat) : Int) (step : Int) =
          ((((L + step - size) / step : Nat)) : Int) := rfl
      rw [h2, Nat.div_eq_of_lt (by omega)]
      simp

/-- `nFullSpec` agrees with the spec's floor formula `max(0, ⌊(L - size)/step⌋ + 1)`. -/
theorem nFullSpec_eq_fdiv (L size step : Nat) (hstep : 0 < step) :
    (nFullSpec L size step : Int) = max 0 (Int.fdiv ((L : Int) - size) step + 1) := by
  unfold nFullSpec
  by_cases hL : size ≤ L
  · rw [if_pos hL]
    have h1 : (L : Int) - size = ((L - size : Nat) : Int) := by omega
    rw [h1, Int.fdiv_eq_ediv _ (by positivity)]
    rw [← Int.ofNat_ediv, max_eq_right (by positivity)]
    push_cast
    ring
  · rw [if_neg hL]
    have h2 : Int.fdiv ((L : Int) - size) step + 1 ≤ 0 := by
      have h3 : Int.fdiv ((L : Int) - size) step < 0 := by
        rw [Int.fdiv_eq_ediv _ (by positivity)]
        exact Int.ediv_neg' (by omega) (by exact_mod_cast hstep)
      omega
    rw [max_eq_left h2]
    simp

/-- The chunk-start cursor passes the end of the window within `chk_size` of it:
`L < nFullSpec L size step * step + size`. -/
theorem lt_nFullSpec_mul (L size step : Nat) (hstep : 0 < step) :
    L < nFullSpec L size step * step + size := by
  unfold nFullSpec
  by_cases hL : size ≤ L
  · rw [if_pos hL]
    have h1 := Nat.div_add_mod (L - size) step
    have h2 : (L - size) % step < step := Nat.mod_lt _ hstep
    have h3 : ((L - size) / step + 1) * step = (L - size) / step * step + step :=
      Nat.succ_mul _ _
    rw [h3]
    have h4 : step * ((L - size) / step) = (L - size) / step * step := Nat.mul_comm _ _
    omega
  · rw [if_neg hL]
    omega

/-- Every start index strictly before the `nFullSpec`-th stays a full chunk away
from the end of the window. -/
theorem nFullSpec_last_le (L size step : Nat) (h : 0 < nFullSpec L size step) :
    (nFullSpec L size step - 1) * step + size ≤ L := by
  unfold nFullSpec at h ⊢
  by_cases hL : size ≤ L
  · rw [if_pos hL]
    simp only [Nat.add_sub_cancel]
    have h1 : (L - size) / step * step ≤ L - size := Nat.div_mul_le_self _ _
    omega
  · rw [if_neg hL] at h
    exact absurd h (by omega)


/-! ## A unified closed form for both branches

From the current suffix `s` of the window, while the continuation condition
holds (`s` nonempty when tails are returned, `chk_size ≤ len(s)` otherwise),
emit `s.take chk_size` and drop `chk_step` elements.  Both source branches are
proved below to equal this closed form. -/

def allChunksU {α : Type} (chk_size chk_step : Nat) (tail : Bool) (s : List α) :
    List (List α) :=
  ((whileEmit (fun t => if tail then !t.isEmpty else decide (chk_size ≤ t.length))
      (fun t => t.drop chk_step) (s.length + 1) s).1).map (fun t => t.take chk_size)

theorem allChunksU_hdec {α : Type} (size step : Nat) (hsize : 0 < size) (hstep : 0 < step)
    (tail : Bool) :
    ∀ t : List α, (if tail then !t.isEmpty else decide (size ≤ t.length)) = true →
      (t.drop step).length < t.length := by
  intro t ht
  rw [List.length_drop]
  cases tail with
  | true =>
    rw [if_pos rfl] at ht
    have h1 : t ≠ [] := by
      intro heq
      subst heq
      simp at ht
    have h2 : 0 < t.length := List.length_pos.mpr h1
    omega
  | false =>
    rw [if_neg (by simp)] at ht
    rw [decide_eq_true_eq] at ht
    omega

theorem allChunksU_eq {α : Type} (size step : Nat) (hsize : 0 < size) (hstep : 0 < step)
    (tail : Bool) (s : List α) :
    allChunksU size step tail s =
      if (if tail then !s.isEmpty else decide (size ≤ s.length)) = true then
        s.take size :: allChunksU size step tail (s.drop step)
      else [] := by
  by_cases h : (if tail then !s.isEmpty else decide (size ≤ s.length)) = true
  · rw [if_pos h]
    unfold allChunksU
    rw [whileEmit_unfold _ _ (fun t => t.length)
      (allChunksU_hdec size step hsize hstep tail) (s.length + 1) s (Nat.le_succ _)]
    rw [if_pos h]
    rw [whileEmit_congr _ _ (fun t => t.length)
      (allChunksU_hdec size step hsize hstep tail) ((s.drop step).length)
      ((s.drop step).length + 1) (s.drop step) (Nat.le_refl _) (Nat.le_succ _)]
    simp
  · rw [if_neg h]
    unfold allChunksU
    rw [whileEmit_unfold _ _ (fun t => t.length)
      (allChunksU_hdec size step hsize hstep tail) (s.length + 1) s (Nat.le_succ _)]
    rw [if_neg h]
    simp

theorem allChunksU_true_cons {α : Type} (size step : Nat) (hsize : 0 < size)
    (hstep : 0 < step) (s : List α) (h : s ≠ []) :
    allChunksU size step true s = s.take size :: allChunksU size step true (s.drop step) := by
  rw [allChunksU_eq size step hsize hstep true s]
  have hb : (!s.isEmpty) = true := by simpa [List.isEmpty_iff] using h
  simp [hb]

theorem allChunksU_nil {α : Type} (size step : Nat) (hsize : 0 < size) (tail : Bool) :
    allChunksU size step tail ([] : List α) = [] := by
  cases tail with
  | true => rfl
  | false =>
    have h3 : size ≠ 0 := by omega
    simp [allChunksU, whileEmit, h3]

theorem allChunksU_false_le {α : Type} (size step : Nat) (hsize : 0 < size)
    (hstep : 0 < step) (s : List α) (h : size ≤ s.length) :
    allChunksU size step false s = s.take size :: allChunksU size step false (s.drop step) := by
  rw [allChunksU_eq size step hsize hstep false s]
  simp [h]

theorem allChunksU_false_lt {α : Type} (size step : Nat) (hsize : 0 < size)
    (hstep : 0 < step) (s : List α) (h : s.length < size) :
    allChunksU size step false s = [] := by
  rw [allChunksU_eq size step hsize hstep false s]
  have h2 : ¬ (size ≤ s.length) := by omega
  simp [h2]

/-! ## Loop recurrences for the source loops -/

theorem tailTrimLoop_nil {α : Type} (step : Nat) : tailTrimLoop step ([] : List α) = [] := rfl

theorem tailTrimLoop_cons {α : Type} (step : Nat) (hstep : 0 < step) (chk : List α)
    (h : chk ≠ []) :
    tailTrimLoop step chk = chk :: tailTrimLoop step (chk.drop step) := by
  have hdec : ∀ c : List α, (!c.isEmpty) = true → (c.drop step).length < c.length := by
    intro c hc
    rw [List.length_drop]
    have h1 : c ≠ [] := by
      intro heq
      subst heq
      simp at hc
    have h2 := List.length_pos.mpr h1
    omega
  unfold tailTrimLoop
  rw [whileEmit_unfold _ _ (fun c => c.length) hdec (chk.length + 1) chk (Nat.le_succ _)]
  have hb : (!chk.isEmpty) = true := by simpa [List.isEmpty_iff] using h
  rw [if_pos hb]
  rw [whileEmit_congr _ _ (fun c => c.length) hdec ((chk.drop step).length)
    ((chk.drop step).length + 1) (chk.drop step) (Nat.le_refl _) (Nat.le_succ _)]

theorem tailChunksList_eq {α : Type} (w : List α) (size step bt : Nat) (hstep : 0 < step) :
    tailChunksList w size step bt =
      if 0 < (pySlice w bt (bt + size)).length then
        pySlice w bt (bt + size) :: tailChunksList w size step (bt + step)
      else [] := by
  have hdec : ∀ b : Nat, (decide (0 < (pySlice w b (b + size)).length)) = true →
      w.length - (b + step) < w.length - b := by
    intro b hb
    rw [decide_eq_true_eq, length_pySlice] at hb
    omega
  unfold tailChunksList
  rw [whileEmit_unfold _ _ (fun b => w.length - b) hdec (w.length + 1) bt
    (Nat.le_succ_of_le (Nat.sub_le _ _))]
  by_cases h : 0 < (pySlice w bt (bt + size)).length
  · rw [if_pos (decide_eq_true h), if_pos h]
    rw [whileEmit_congr _ _ (fun b => w.length - b) hdec (w.length - (bt + step))
      (w.length + 1) (bt + step) (Nat.le_refl _) (Nat.le_succ_of_le (Nat.sub_le _ _))]
    simp
  · rw [if_neg (by simpa using h), if_neg h]
    simp

theorem chunkLoopLT_eq {α : Type} (size step : Nat) (hsize : 0 < size) (hstep : 0 < step)
    (chk it : List α) :
    chunkLoopLT size step chk it =
      if chk.length = size then
        ((chk :: (chunkLoopLT size step (chk.drop step ++ it.take step) (it.drop step)).1),
          (chunkLoopLT size step (chk.drop step ++ it.take step) (it.drop step)).2)
      else ([], chk) := by
  have hdec : ∀ s : List α × List α, (s.1.length == size) = true →
      (s.1.drop step ++ s.2.take step).length + (s.2.drop step).length <
        s.1.length + s.2.length := by
    intro s hs
    rw [beq_iff_eq] at hs
    simp only [List.length_append, List.length_drop, List.length_take]
    omega
  simp only [chunkLoopLT]
  rw [whileEmit_unfold _ _ (fun s => s.1.length + s.2.length) hdec
    (chk.length + it.length + 1) (chk, it) (Nat.le_succ _)]
  by_cases h : chk.length = size
  · rw [if_pos (by simpa using h), if_pos h]
    rw [whileEmit_congr _ _ (fun s => s.1.length + s.2.length) hdec
      ((chk.drop step ++ it.take step).length + (it.drop step).length)
      ((chk.drop step ++ it.take step).length + (it.drop step).length + 1)
      ((chk.drop step ++ it.take step), (it.drop step)) (Nat.le_refl _) (Nat.le_succ _)]
    simp
  · rw [if_neg (by simpa using h), if_neg h]
    simp

theorem chunkLoopGE_eq {α : Type} (size step : Nat) (hsize : 0 < size) (hstep : 0 < step)
    (chk it : List α) :
    chunkLoopGE size step chk it =
      if chk.length = size then
        ((chk :: (chunkLoopGE size step ((it.take (step - size + size)).drop (step - size))
            (it.drop (step - size + size))).1),
          (chunkLoopGE size step ((it.take (step - size + size)).drop (step - size))
            (it.drop (step - size + size))).2)
      else ([], chk) := by
  have hdec : ∀ s : List α × List α, (s.1.length == size) = true →
      ((s.2.take (step - size + size)).drop (step - size)).length +
        (s.2.drop (step - size + size)).length < s.1.length + s.2.length := by
    intro s hs
    rw [beq_iff_eq] at hs
    simp only [List.length_drop, List.length_take]
    omega
  simp only [chunkLoopGE]
  rw [whileEmit_unfold _ _ (fun s => s.1.length + s.2.length) hdec
    (chk.length + it.length + 1) (chk, it) (Nat.le_succ _)]
  by_cases h : chk.length = size
  · rw [if_pos (by simpa using h), if_pos h]
    rw [whileEmit_congr _ _ (fun s => s.1.length + s.2.length) hdec
      (((it.take (step - size + size)).drop (step - size)).length +
        (it.drop (step - size + size)).length)
      (((it.take (step - size + size)).drop (step - size)).length +
        (it.drop (step - size + size)).length + 1)
      (((it.take (step - size + size)).drop (step - size)), (it.drop (step - size + size)))
      (Nat.le_refl _) (Nat.le_succ _)]
    simp
  · rw [if_neg (by simpa using h), if_neg h]
    simp

/-! ## Bridge: the indexable branch equals the unified closed form -/

theorem fullChunksList_eq_allChunksU {α : Type} (size step : Nat) (hsize : 0 < size)
    (hstep : 0 < step) :
    ∀ (fuel : Nat) (w : List α), w.length ≤ fuel →
      fullChunksList w size step (nFullSpec w.length size step) =
        allChunksU size step false w := by
  intro fuel
  induction fuel with
  | zero =>
    intro w hw
    have hnil : w = [] := List.length_eq_zero.mp (by omega)
    subst hnil
    rw [allChunksU_nil size step hsize false]
    unfold nFullSpec
    rw [if_neg (by simp; omega)]
    rfl
  | succ fuel ih =>
    intro w hw
    by_cases hL : size ≤ w.length
    · rw [allChunksU_false_le size step hsize hstep w hL,
        nFullSpec_succ w.length size step hsize hstep hL]
      unfold fullChunksList
      rw [List.range_succ_eq_map, List.map_cons, List.map_map]
      congr 1
      · rw [Nat.zero_mul, Nat.zero_add, pySlice_zero]
      · rw [← ih (w.drop step) (by rw [List.length_drop]; omega)]
        unfold fullChunksList
        rw [List.length_drop]
        apply List.map_congr_left
        intro i _
        simp only [Function.comp_apply]
        rw [pySlice_shift w step (i * step) (i * step + size)]
        congr 1
        · rw [Nat.succ_mul]
          omega
        · rw [Nat.succ_mul]
          omega
    · rw [allChunksU_false_lt size step hsize hstep w (by omega)]
      unfold nFullSpec
      rw [if_neg hL]
      rfl

theorem allChunksU_true_eq_tailTrim {α : Type} (size step : Nat) (hsize : 0 < size)
    (hstep : 0 < step) :
    ∀ (fuel : Nat) (s : List α), s.length ≤ fuel → s.length < size →
      allChunksU size step true s = tailTrimLoop step s := by
  intro fuel
  induction fuel with
  | zero =>
    intro s h1 h2
    have hnil : s = [] := List.length_eq_zero.mp (by omega)
    subst hnil
    rw [allChunksU_nil size step hsize true, tailTrimLoop_nil]
  | succ fuel ih =>
    intro s h1 h2
    by_cases hs : s = []
    · subst hs
      rw [allChunksU_nil size step hsize true, tailTrimLoop_nil]
    · rw [allChunksU_true_cons size step hsize hstep s hs,
        tailTrimLoop_cons step hstep s hs]
      have hpos := List.length_pos.mpr hs
      congr 1
      · exact List.take_of_length_le (by omega)
      · exact ih (s.drop step) (by rw [List.length_drop]; omega)
          (by rw [List.length_drop]; omega)

theorem allChunksU_true_split {α : Type} (size step : Nat) (hsize : 0 < size)
    (hstep : 0 < step) :
    ∀ (fuel : Nat) (w : List α), w.length ≤ fuel →
      allChunksU size step true w =
        allChunksU size step false w ++
          tailTrimLoop step (w.drop (nFullSpec w.length size step * step)) := by
  intro fuel
  induction fuel with
  | zero =>
    intro w hw
    have hnil : w = [] := List.length_eq_zero.mp (by omega)
    subst hnil
    rw [allChunksU_nil size step hsize true, allChunksU_nil size step hsize false,
      List.nil_append, List.drop_nil, tailTrimLoop_nil]
  | succ fuel ih =>
    intro w hw
    by_cases hL : size ≤ w.length
    · have hw0 : w ≠ [] := by
        intro h
        subst h
        simp at hL
        omega
      rw [allChunksU_true_cons size step hsize hstep w hw0,
        allChunksU_false_le size step hsize hstep w hL,
        nFullSpec_succ w.length size step hsize hstep hL, List.cons_append]
      congr 1
      rw [ih (w.drop step) (by rw [List.length_drop]; omega)]
      congr 2
      rw [List.length_drop, List.drop_drop]
      congr 1
      ring
    · rw [allChunksU_false_lt size step hsize hstep w (by omega)]
      unfold nFullSpec
      rw [if_neg hL]
      simp only [Nat.zero_mul, List.drop_zero, List.nil_append]
      exact allChunksU_true_eq_tailTrim size step hsize hstep w.length w (le_refl _) (by omega)

theorem tailChunksList_eq_tailTrim {α : Type} (w : List α) (size step : Nat)
    (hstep : 0 < step) :
    ∀ (fuel bt : Nat), w.length - bt ≤ fuel → w.length ≤ bt + size →
      tailChunksList w size step bt = tailTrimLoop step (w.drop bt) := by
  intro fuel
  induction fuel with
  | zero =>
    intro bt h1 h2
    rw [tailChunksList_eq w size step bt hstep]
    rw [if_neg (by rw [length_pySlice]; omega)]
    rw [List.drop_eq_nil_of_le (by omega), tailTrimLoop_nil]
  | succ fuel ih =>
    intro bt h1 h2
    rw [tailChunksList_eq w size step bt hstep]
    by_cases h : 0 < (pySlice w bt (bt + size)).length
    · rw [if_pos h]
      have hbt : bt < w.length := by
        rw [length_pySlice] at h
        omega
      have hslice : pySlice w bt (bt + size) = w.drop bt := by
        unfold pySlice
        rw [List.take_of_length_le (by omega)]
      have hne : w.drop bt ≠ [] := by
        intro heq
        have hlen := congrArg List.length heq
        rw [List.length_drop] at hlen
        simp at hlen
        omega
      rw [tailTrimLoop_cons step hstep (w.drop bt) hne, hslice]
      congr 1
      rw [List.drop_drop]
      exact ih (bt + step) (by omega) (by omega)
    · rw [if_neg h]
      rw [length_pySlice] at h
      rw [List.drop_eq_nil_of_le (by omega), tailTrimLoop_nil]

/-! ## Bridge: the cursor branch equals the unified closed form -/

theorem chunkLoopLT_spec {α : Type} (size step : Nat) (hstep : 0 < step) (hlt : step < size) :
    ∀ (fuel : Nat) (s : List α), s.length ≤ fuel →
      chunkLoopLT size step (s.take size) (s.drop size) =
        (allChunksU size step false s, s.drop (nFullSpec s.length size step * step)) := by
  have hsize : 0 < size := by omega
  intro fuel
  induction fuel with
  | zero =>
    intro s h1
    have hnil : s = [] := List.length_eq_zero.mp (by omega)
    subst hnil
    rw [chunkLoopLT_eq size step hsize hstep _ _]
    rw [if_neg (by simp; omega)]
    rw [allChunksU_nil size step hsize false]
    unfold nFullSpec
    rw [if_neg (by simp; omega)]
    simp
  | succ fuel ih =>
    intro s h1
    by_cases hL : size ≤ s.length
    · rw [chunkLoopLT_eq size step hsize hstep _ _]
      rw [if_pos (by rw [List.length_take]; omega)]
      have hd2 : (s.drop step).drop (size - step) = s.drop size := by
        rw [List.drop_drop]
        congr 1
        omega
      have hchk : (s.take size).drop step ++ (s.drop size).take step =
          (s.drop step).take size := by
        rw [List.drop_take, ← hd2, ← List.take_add]
        congr 1
        omega
      have hit : (s.drop size).drop step = (s.drop step).drop size := by
        rw [List.drop_drop, List.drop_drop]
        congr 1
        omega
      rw [hchk, hit]
      rw [ih (s.drop step) (by rw [List.length_drop]; omega)]
      rw [allChunksU_false_le size step hsize hstep s hL]
      rw [nFullSpec_succ s.length size step hsize hstep hL]
      simp only [Prod.mk.injEq]
      constructor
      · trivial
      · rw [List.length_drop, List.drop_drop]
        congr 1
        rw [Nat.succ_mul]
        omega
    · rw [chunkLoopLT_eq size step hsize hstep _ _]
      rw [if_neg (by rw [List.length_take]; omega)]
      rw [allChunksU_false_lt size step hsize hstep s (by omega)]
      unfold nFullSpec
      rw [if_neg hL]
      simp only [Nat.zero_mul, List.drop_zero]
      rw [List.take_of_length_le (by omega)]

theorem chunkLoopGE_spec {α : Type} (size step : Nat) (hsize : 0 < size) (hge : size ≤ step) :
    ∀ (fuel : Nat) (s : List α), s.length ≤ fuel →
      chunkLoopGE size step (s.take size) (s.drop size) =
        (allChunksU size step false s, s.drop (nFullSpec s.length size step * step)) := by
  have hstep : 0 < step := by omega
  intro fuel
  induction fuel with
  | zero =>
    intro s h1
    have hnil : s = [] := List.length_eq_zero.mp (by omega)
    subst hnil
    rw [chunkLoopGE_eq size step hsize hstep _ _]
    rw [if_neg (by simp; omega)]
    rw [allChunksU_nil size step hsize false]
    unfold nFullSpec
    rw [if_neg (by simp; omega)]
    simp
  | succ fuel ih =>
    intro s h1
    by_cases hL : size ≤ s.length
    · rw [chunkLoopGE_eq size step hsize hstep _ _]
      rw [if_pos (by rw [List.length_take]; omega)]
      have hd2 : (s.drop size).drop (step - size) = s.drop step := by
        rw [List.drop_drop]
        congr 1
        omega
      have hchk : ((s.drop size).take (step - size + size)).drop (step - size) =
          (s.drop step).take size := by
        rw [List.drop_take, ← hd2]
        congr 1
        omega
      have hit : (s.drop size).drop (step - size + size) = (s.drop step).drop size := by
        rw [List.drop_drop, List.drop_drop]
        congr 1
        omega
      rw [hchk, hit]
      rw [ih (s.drop step) (by rw [List.length_drop]; omega)]
      rw [allChunksU_false_le size step hsize hstep s hL]
      rw [nFullSpec_succ s.length size step hsize hstep hL]
      simp only [Prod.mk.injEq]
      constructor
      · trivial
      · rw [List.length_drop, List.drop_drop]
        congr 1
        rw [Nat.succ_mul]
        omega
    · rw [chunkLoopGE_eq size step hsize hstep _ _]
      rw [if_neg (by rw [List.length_take]; omega)]
      rw [allChunksU_false_lt size step hsize hstep s (by omega)]
      unfold nFullSpec
      rw [if_neg hL]
      simp only [Nat.zero_mul, List.drop_zero]
      rw [List.take_of_length_le (by omega)]

/-! ## Main characterisations of the two branches -/

/-- The indexable branch, under valid parameters, produces exactly the unified
closed form over the resolved window. -/
theorem fixed_step_chunker_list_run {α : Type} (it : List α) (chk_size : Nat)
    (chk_step start_at stop_at : Option Nat) (return_tail : Bool)
    (hsize : 0 < chk_size) (hstep : 0 < chk_step.getD chk_size) :
    fixed_step_chunker_list it chk_size chk_step start_at stop_at return_tail =
      Except.ok (allChunksU chk_size (chk_step.getD chk_size) return_tail
        (pyWindow it start_at stop_at)) := by
  simp only [fixed_step_chunker_list]
  rw [if_neg (by omega)]
  rw [n_full_toNat (pyWindow it start_at stop_at).length chk_size (chk_step.getD chk_size) hstep]
  congr 1
  cases return_tail with
  | false =>
    rw [if_neg (by simp), List.append_nil]
    exact fullChunksList_eq_allChunksU chk_size (chk_step.getD chk_size) hsize hstep
      (pyWindow it start_at stop_at).length (pyWindow it start_at stop_at) (le_refl _)
  | true =>
    rw [if_pos rfl]
    rw [fullChunksList_eq_allChunksU chk_size (chk_step.getD chk_size) hsize hstep
      (pyWindow it start_at stop_at).length (pyWindow it start_at stop_at) (le_refl _)]
    rw [tailChunksList_eq_tailTrim (pyWindow it start_at stop_at) chk_size
      (chk_step.getD chk_size) hstep (pyWindow it start_at stop_at).length
      (nFullSpec (pyWindow it start_at stop_at).length chk_size (chk_step.getD chk_size) *
        (chk_step.getD chk_size))
      (by omega)
      (by
        have := lt_nFullSpec_mul (pyWindow it start_at stop_at).length chk_size
          (chk_step.getD chk_size) hstep
        omega)]
    exact (allChunksU_true_split chk_size (chk_step.getD chk_size) hsize hstep
      (pyWindow it start_at stop_at).length (pyWindow it start_at stop_at) (le_refl _)).symm

/-- The cursor branch, under valid parameters, produces exactly the unified
closed form over the resolved window. -/
theorem fixed_step_chunker_iter_run {α : Type} (it : List α) (chk_size : Nat)
    (chk_step start_at stop_at : Option Nat) (return_tail : Bool)
    (hsize : 0 < chk_size) (hstep : 0 < chk_step.getD chk_size) :
    fixed_step_chunker_iter it chk_size chk_step start_at stop_at return_tail =
      allChunksU chk_size (chk_step.getD chk_size) return_tail
        (pyWindow it start_at stop_at) := by
  simp only [fixed_step_chunker_iter]
  rw [← pyWindow_eq_islice2 it start_at stop_at]
  by_cases hc : chk_step.getD chk_size < chk_size
  · rw [if_pos hc]
    rw [chunkLoopLT_spec chk_size (chk_step.getD chk_size) hstep hc
      (pyWindow it start_at stop_at).length (pyWindow it start_at stop_at) (le_refl _)]
    cases return_tail with
    | false => rw [if_neg (by simp), List.append_nil]
    | true =>
      rw [if_pos rfl]
      exact (allChunksU_true_split chk_size (chk_step.getD chk_size) hsize hstep
        (pyWindow it start_at stop_at).length (pyWindow it start_at stop_at) (le_refl _)).symm
  · rw [if_neg hc]
    rw [chunkLoopGE_spec chk_size (chk_step.getD chk_size) hsize (by omega)
      (pyWindow it start_at stop_at).length (pyWindow it start_at stop_at) (le_refl _)]
    cases return_tail with
    | false => rw [if_neg (by simp), List.append_nil]
    | true =>
      rw [if_pos rfl]
      exact (allChunksU_true_split chk_size (chk_step.getD chk_size) hsize hstep
        (pyWindow it start_at stop_at).length (pyWindow it start_at stop_at) (le_refl _)).symm

/-! ## Indexing and counting facts about the unified closed form -/

theorem allChunksU_getElem {α : Type} (size step : Nat) (hsize : 0 < size) (hstep : 0 < step)
    (tail : Bool) :
    ∀ (n : Nat) (s : List α), n < (allChunksU size step tail s).length →
      (allChunksU size step tail s)[n]? = some ((s.drop (n * step)).take size) := by
  intro n
  induction n with
  | zero =>
    intro s h
    by_cases hc : (if tail then !s.isEmpty else decide (size ≤ s.length)) = true
    · rw [allChunksU_eq size step hsize hstep tail s, if_pos hc]
      simp
    · rw [allChunksU_eq size step hsize hstep tail s, if_neg hc] at h
      simp at h
  | succ n ih =>
    intro s h
    by_cases hc : (if tail then !s.isEmpty else decide (size ≤ s.length)) = true
    · rw [allChunksU_eq size step hsize hstep tail s, if_pos hc] at h ⊢
      rw [List.getElem?_cons_succ]
      rw [List.length_cons] at h
      rw [ih (s.drop step) (by omega)]
      rw [List.drop_drop]
      congr 3
      rw [Nat.succ_mul]
      omega
    · rw [allChunksU_eq size step hsize hstep tail s, if_neg hc] at h
      simp at h

theorem allChunksU_get {α : Type} (size step : Nat) (hsize : 0 < size) (hstep : 0 < step)
    (tail : Bool) (s : List α) (n : Nat)
    (h : n < (allChunksU size step tail s).length) :
    (allChunksU size step tail s).get ⟨n, h⟩ = (s.drop (n * step)).take size := by
  have h1 := allChunksU_getElem size step hsize hstep tail n s h
  rw [List.getElem?_eq_getElem h] at h1
  rw [List.get_eq_getElem]
  exact Option.some.inj h1

theorem allChunksU_true_length_iff {α : Type} (size step : Nat) (hsize : 0 < size)
    (hstep : 0 < step) :
    ∀ (n : Nat) (s : List α),
      n < (allChunksU size step true s).length ↔ n * step < s.length := by
  intro n
  induction n with
  | zero =>
    intro s
    by_cases hs : s = []
    · subst hs
      rw [allChunksU_nil size step hsize true]
      simp
    · rw [allChunksU_true_cons size step hsize hstep s hs]
      have hpos := List.length_pos.mpr hs
      simp only [List.length_cons, Nat.zero_mul]
      omega
  | succ n ih =>
    intro s
    by_cases hs : s = []
    · subst hs
      rw [allChunksU_nil size step hsize true]
      simp
    · rw [allChunksU_true_cons size step hsize hstep s hs]
      have hpos := List.length_pos.mpr hs
      rw [List.length_cons, Nat.add_lt_add_iff_right, ih (s.drop step), List.length_drop,
        Nat.succ_mul]
      omega

theorem allChunksU_false_length_iff {α : Type} (size step : Nat) (hsize : 0 < size)
    (hstep : 0 < step) :
    ∀ (n : Nat) (s : List α),
      n < (allChunksU size step false s).length ↔ n * step + size ≤ s.length := by
  intro n
  induction n with
  | zero =>
    intro s
    by_cases hL : size ≤ s.length
    · rw [allChunksU_false_le size step hsize hstep s hL]
      simp only [List.length_cons, Nat.zero_mul]
      omega
    · rw [allChunksU_false_lt size step hsize hstep s (by omega)]
      simp only [List.length_nil, Nat.zero_mul]
      omega
  | succ n ih =>
    intro s
    by_cases hL : size ≤ s.length
    · rw [allChunksU_false_le size step hsize hstep s hL]
      rw [List.length_cons, Nat.add_lt_add_iff_right, ih (s.drop step), List.length_drop,
        Nat.succ_mul]
      omega
    · rw [allChunksU_false_lt size step hsize hstep s (by omega)]
      simp only [List.length_nil]
      constructor
      · omega
      · intro hcon
        have : size ≤ s.length := by
          have h1 : size ≤ (n + 1) * step + size := by omega
          omega
        omega

theorem allChunksU_false_length {α : Type} (size step : Nat) (hsize : 0 < size)
    (hstep : 0 < step) (s : List α) :
    (allChunksU size step false s).length = nFullSpec s.length size step := by
  have h1 : ¬ (nFullSpec s.length size step < (allChunksU size step false s).length) := by
    rw [allChunksU_false_length_iff size step hsize hstep]
    have := lt_nFullSpec_mul s.length size step hstep
    omega
  have h2 : nFullSpec s.length size step ≤ (allChunksU size step false s).length := by
    rcases Nat.eq_zero_or_pos (nFullSpec s.length size step) with h0 | hpos
    · omega
    · have hlast := nFullSpec_last_le s.length size step hpos
      have h3 : nFullSpec s.length size step - 1 < (allChunksU size step false s).length := by
        rw [allChunksU_false_length_iff size step hsize hstep]
        exact hlast
      omega
  omega

theorem allChunksU_countP {α : Type} (size step : Nat) (hsize : 0 < size) (hstep : 0 < step)
    (tail : Bool) :
    ∀ (fuel : Nat) (s : List α), s.length ≤ fuel →
      (allChunksU size step tail s).countP (fun c => c.length == size) =
        nFullSpec s.length size step := by
  intro fuel
  induction fuel with
  | zero =>
    intro s hw
    have hnil : s = [] := List.length_eq_zero.mp (by omega)
    subst hnil
    rw [allChunksU_nil size step hsize tail]
    unfold nFullSpec
    rw [if_neg (by simp; omega)]
    rfl
  | succ fuel ih =>
    intro s hw
    cases tail with
    | false =>
      by_cases hL : size ≤ s.length
      · rw [allChunksU_false_le size step hsize hstep s hL, List.countP_cons]
        have hhead : ((s.take size).length == size) = true := by
          rw [List.length_take, Nat.min_eq_left hL]
          simp
        rw [hhead]
        rw [ih (s.drop step) (by rw [List.length_drop]; omega)]
        rw [List.length_drop]
        rw [nFullSpec_succ s.length size step hsize hstep hL]
        simp
      · rw [allChunksU_false_lt size step hsize hstep s (by omega)]
        unfold nFullSpec
        rw [if_neg hL]
        rfl
    | true =>
      by_cases hs : s = []
      · subst hs
        rw [allChunksU_nil size step hsize true]
        unfold nFullSpec
        rw [if_neg (by simp; omega)]
        rfl
      · have hpos := List.length_pos.mpr hs
        rw [allChunksU_true_cons size step hsize hstep s hs, List.countP_cons]
        rw [ih (s.drop step) (by rw [List.length_drop]; omega), List.length_drop]
        by_cases hL : size ≤ s.length
        · have hhead : ((s.take size).length == size) = true := by
            rw [List.length_take, Nat.min_eq_left hL]
            simp
          rw [hhead, nFullSpec_succ s.length size step hsize hstep hL]
          simp
        · have hhead : ((s.take size).length == size) = false := by
            rw [List.length_take]
            simp
            omega
          rw [hhead]
          unfold nFullSpec
          rw [if_neg hL, if_neg (by omega)]
          simp

/-! ## The claims -/

/-- Claim C1: for every finite sequence and valid parameters (`chk_size ≥ 1`,
resolved `chk_step ≥ 1`, any nonnegative `start_at`/`stop_at`, any
`return_tail`), the indexable-source branch and the cursor-source branch of
`fixed_step_chunker` yield exactly the same finite sequence of chunks,
chunk-for-chunk and element-for-element. -/
theorem C1_branch_equivalence {α : Type} (it : List α) (chk_size : Nat)
    (chk_step start_at stop_at : Option Nat) (return_tail : Bool)
    (hsize : 0 < chk_size) (hstep : 0 < chk_step.getD chk_size) :
    fixed_step_chunker_list it chk_size chk_step start_at stop_at return_tail =
      Except.ok (fixed_step_chunker_iter it chk_size chk_step start_at stop_at return_tail) := by
  rw [fixed_step_chunker_list_run it chk_size chk_step start_at stop_at return_tail hsize hstep,
    fixed_step_chunker_iter_run it chk_size chk_step start_at stop_at return_tail hsize hstep]

theorem C1_witness :
    0 < 3 ∧ 0 < (some 2 : Option Nat).getD 3 ∧
    fixed_step_chunker_list [1, 2, 3, 4, 5, 6, 7] 3 (some 2) none none true =
      Except.ok (fixed_step_chunker_iter [1, 2, 3, 4, 5, 6, 7] 3 (some 2) none none true) :=
  ⟨by decide, by decide,
    C1_branch_equivalence [1, 2, 3, 4, 5, 6, 7] 3 (some 2) none none true
      (by decide) (by decide)⟩

/-- Claim C2: the `n`-th emitted chunk (0-indexed, full and tail chunks counted
together) is the window slice `window[n*chk_step : n*chk_step + chk_size]`:
it starts at window offset `n * chk_step`, i.e. at logical source index
`start_at + n * chk_step`, and a full chunk is exactly the window elements at
`[n*chk_step, n*chk_step + chk_size)`. -/
theorem C2_start_index_progression {α : Type} (it : List α) (chk_size : Nat)
    (chk_step start_at stop_at : Option Nat) (return_tail : Bool)
    (hsize : 0 < chk_size) (hstep : 0 < chk_step.getD chk_size)
    (out : List (List α))
    (hrun : fixed_step_chunker_list it chk_size chk_step start_at stop_at return_tail =
      Except.ok out)
    (n : Nat) (hn : n < out.length) :
    out.get ⟨n, hn⟩ =
      pySlice (pyWindow it start_at stop_at) (n * (chk_step.getD chk_size))
        (n * (chk_step.getD chk_size) + chk_size) := by
  rw [fixed_step_chunker_list_run it chk_size chk_step start_at stop_at return_tail hsize hstep]
    at hrun
  have hout : out = allChunksU chk_size (chk_step.getD chk_size) return_tail
      (pyWindow it start_at stop_at) := (Except.ok.inj hrun).symm
  subst hout
  rw [allChunksU_get chk_size (chk_step.getD chk_size) hsize hstep return_tail _ n hn]
  rw [pySlice_drop_take]

theorem C2_witness :
    0 < 3 ∧ 0 < (some 2 : Option Nat).getD 3 ∧
    fixed_step_chunker_list [1, 2, 3, 4, 5, 6, 7] 3 (some 2) none none false =
      Except.ok [[1, 2, 3], [3, 4, 5], [5, 6, 7]] ∧
    ([[1, 2, 3], [3, 4, 5], [5, 6, 7]] : List (List Nat)).get ⟨1, by decide⟩ =
      pySlice (pyWindow [1, 2, 3, 4, 5, 6, 7] none none) (1 * (some 2 : Option Nat).getD 3)
        (1 * (some 2 : Option Nat).getD 3 + 3) :=
  ⟨by decide, by decide, by rfl,
    C2_start_index_progression [1, 2, 3, 4, 5, 6, 7] 3 (some 2) none none false
      (by decide) (by decide) [[1, 2, 3], [3, 4, 5], [5, 6, 7]] (by rfl) 1 (by decide)⟩

/-- Claim C3: with `return_tail = false`, every chunk in the output has length
exactly `chk_size`; no chunk of any other length is produced. -/
theorem C3_no_tail_all_full {α : Type} (it : List α) (chk_size : Nat)
    (chk_step start_at stop_at : Option Nat)
    (hsize : 0 < chk_size) (hstep : 0 < chk_step.getD chk_size)
    (out : List (List α))
    (hrun : fixed_step_chunker_list it chk_size chk_step start_at stop_at false =
      Except.ok out) :
    ∀ c ∈ out, c.length = chk_size := by
  rw [fixed_step_chunker_list_run it chk_size chk_step start_at stop_at false hsize hstep]
    at hrun
  have hout : out = allChunksU chk_size (chk_step.getD chk_size) false
      (pyWindow it start_at stop_at) := (Except.ok.inj hrun).symm
  subst hout
  intro c hc
  rw [List.mem_iff_get] at hc
  obtain ⟨⟨n, hn⟩, hget⟩ := hc
  rw [allChunksU_get chk_size (chk_step.getD chk_size) hsize hstep false _ n hn] at hget
  have hb := (allChunksU_false_length_iff chk_size (chk_step.getD chk_size) hsize hstep n
    (pyWindow it start_at stop_at)).mp hn
  rw [← hget, List.length_take, List.length_drop]
  omega

theorem C3_witness :
    0 < 3 ∧ 0 < (some 2 : Option Nat).getD 3 ∧
    fixed_step_chunker_list [1, 2, 3, 4, 5, 6, 7] 3 (some 2) none none false =
      Except.ok [[1, 2, 3], [3, 4, 5], [5, 6, 7]] ∧
    (∀ c ∈ ([[1, 2, 3], [3, 4, 5], [5, 6, 7]] : List (List Nat)), c.length = 3) :=
  ⟨by decide, by decide, by rfl,
    C3_no_tail_all_full [1, 2, 3, 4, 5, 6, 7] 3 (some 2) none none
      (by decide) (by decide) [[1, 2, 3], [3, 4, 5], [5, 6, 7]] (by rfl)⟩

/-- Claim C4: the number of full chunks emitted (chunks of length exactly
`chk_size`) equals `max(0, ⌊(len(window) - chk_size) / chk_step⌋ + 1)`, the
window being the source restricted to `[start_at, stop_at)`. -/
theorem C4_full_chunk_count {α : Type} (it : List α) (chk_size : Nat)
    (chk_step start_at stop_at : Option Nat) (return_tail : Bool)
    (hsize : 0 < chk_size) (hstep : 0 < chk_step.getD chk_size)
    (out : List (List α))
    (hrun : fixed_step_chunker_list it chk_size chk_step start_at stop_at return_tail =
      Except.ok out) :
    (out.countP (fun c => c.length == chk_size) : Int) =
      max 0 (Int.fdiv (((pyWindow it start_at stop_at).length : Int) - chk_size)
        (chk_step.getD chk_size) + 1) := by
  rw [fixed_step_chunker_list_run it chk_size chk_step start_at stop_at return_tail hsize hstep]
    at hrun
  have hout : out = allChunksU chk_size (chk_step.getD chk_size) return_tail
      (pyWindow it start_at stop_at) := (Except.ok.inj hrun).symm
  subst hout
  rw [allChunksU_countP chk_size (chk_step.getD chk_size) hsize hstep return_tail
    (pyWindow it start_at stop_at).length (pyWindow it start_at stop_at) (le_refl _)]
  exact nFullSpec_eq_fdiv (pyWindow it start_at stop_at).length chk_size
    (chk_step.getD chk_size) hstep

theorem C4_witness :
    0 < 3 ∧ 0 < (some 2 : Option Nat).getD 3 ∧
    fixed_step_chunker_list [1, 2, 3, 4, 5, 6, 7] 3 (some 2) none none true =
      Except.ok [[1, 2, 3], [3, 4, 5], [5, 6, 7], [7]] ∧
    ((([[1, 2, 3], [3, 4, 5], [5, 6, 7], [7]] : List (List Nat)).countP
        (fun c => c.length == 3) : Int) =
      max 0 (Int.fdiv (((pyWindow [1, 2, 3, 4, 5, 6, 7] none none).length : Int) - 3)
        ((some 2 : Option Nat).getD 3) + 1)) :=
  ⟨by decide, by decide, by rfl,
    C4_full_chunk_count [1, 2, 3, 4, 5, 6, 7] 3 (some 2) none none true
      (by decide) (by decide) [[1, 2, 3], [3, 4, 5], [5, 6, 7], [7]] (by rfl)⟩

/-- Claim C5: with `return_tail = true`, writing `w` for the resolved window,
`step` for the resolved step and `N` for the full-chunk count, the chunks
before position `N` are exactly the full chunks, and every chunk from position
`N` on is a tail chunk: it is the window suffix starting at offset
`(N + j) * step` (so tail start indices strictly increase with `j`), its length
is strictly less than `chk_size` and at least 1, and consecutive tail lengths
strictly decrease. -/
theorem C5_tail_structure {α : Type} (it : List α) (chk_size step N : Nat)
    (chk_step start_at stop_at : Option Nat) (w : List α) (out : List (List α))
    (hsize : 0 < chk_size) (hstepdef : step = chk_step.getD chk_size) (hstep : 0 < step)
    (hw : w = pyWindow it start_at stop_at)
    (hN : N = nFullSpec w.length chk_size step)
    (hrun : fixed_step_chunker_list it chk_size chk_step start_at stop_at true =
      Except.ok out) :
    (∀ i (hi : i < out.length), i < N → (out.get ⟨i, hi⟩).length = chk_size) ∧
    (∀ j (hj : N + j < out.length),
      out.get ⟨N + j, hj⟩ = w.drop ((N + j) * step) ∧
      (out.get ⟨N + j, hj⟩).length < chk_size ∧
      0 < (out.get ⟨N + j, hj⟩).length) ∧
    (∀ j (hj1 : N + j < out.length) (hj2 : N + j + 1 < out.length),
      (out.get ⟨N + j + 1, hj2⟩).length < (out.get ⟨N + j, hj1⟩).length) := by
  subst hstepdef
  subst hw
  rw [fixed_step_chunker_list_run it chk_size chk_step start_at stop_at true hsize hstep]
    at hrun
  have hout : out = allChunksU chk_size (chk_step.getD chk_size) true
      (pyWindow it start_at stop_at) := (Except.ok.inj hrun).symm
  subst hout
  have hover := lt_nFullSpec_mul (pyWindow it start_at stop_at).length chk_size
    (chk_step.getD chk_size) hstep
  rw [← hN] at hover
  refine ⟨?_, ?_, ?_⟩
  · intro i hi hiN
    have hNpos : 0 < N := by omega
    have hlast := nFullSpec_last_le (pyWindow it start_at stop_at).length chk_size
      (chk_step.getD chk_size) (by omega)
    rw [← hN] at hlast
    have hmono : i * (chk_step.getD chk_size) ≤ (N - 1) * (chk_step.getD chk_size) :=
      Nat.mul_le_mul_right _ (by omega)
    rw [allChunksU_get chk_size (chk_step.getD chk_size) hsize hstep true _ i hi]
    rw [List.length_take, List.length_drop]
    omega
  · intro j hj
    have hb := (allChunksU_true_length_iff chk_size (chk_step.getD chk_size) hsize hstep
      (N + j) (pyWindow it start_at stop_at)).mp hj
    have hmono : N * (chk_step.getD chk_size) ≤ (N + j) * (chk_step.getD chk_size) :=
      Nat.mul_le_mul_right _ (by omega)
    have hshort : ((pyWindow it start_at stop_at).drop
        ((N + j) * (chk_step.getD chk_size))).length < chk_size := by
      rw [List.length_drop]
      omega
    refine ⟨?_, ?_, ?_⟩
    · rw [allChunksU_get chk_size (chk_step.getD chk_size) hsize hstep true _ (N + j) hj]
      exact List.take_of_length_le (by omega)
    · rw [allChunksU_get chk_size (chk_step.getD chk_size) hsize hstep true _ (N + j) hj]
      rw [List.length_take, List.length_drop]
      omega
    · rw [allChunksU_get chk_size (chk_step.getD chk_size) hsize hstep true _ (N + j) hj]
      rw [List.length_take, List.length_drop]
      omega
  · intro j hj1 hj2
    have hb1 := (allChunksU_true_length_iff chk_size (chk_step.getD chk_size) hsize hstep
      (N + j) (pyWindow it start_at stop_at)).mp hj1
    rw [allChunksU_get chk_size (chk_step.getD chk_size) hsize hstep true _ (N + j) hj1,
      allChunksU_get chk_size (chk_step.getD chk_size) hsize hstep true _ (N + j + 1) hj2]
    rw [List.length_take, List.length_take, List.length_drop, List.length_drop]
    have hsucc : (N + j + 1) * (chk_step.getD chk_size) =
        (N + j) * (chk_step.getD chk_size) + (chk_step.getD chk_size) := Nat.succ_mul _ _
    have hmono : N * (chk_step.getD chk_size) ≤ (N + j) * (chk_step.getD chk_size) :=
      Nat.mul_le_mul_right _ (by omega)
    omega

theorem C5_witness :
    0 < 3 ∧ (1 : Nat) = (some 1 : Option Nat).getD 3 ∧ 0 < 1 ∧
    ([3, 4, 5] : List Nat) = pyWindow [1, 2, 3, 4, 5, 6, 7, 8, 9, 10, 11, 12, 13, 14, 15, 16]
      (some 2) (some 5) ∧
    (1 : Nat) = nFullSpec ([3, 4, 5] : List Nat).length 3 1 ∧
    fixed_step_chunker_list [1, 2, 3, 4, 5, 6, 7, 8, 9, 10, 11, 12, 13, 14, 15, 16] 3
      (some 1) (some 2) (some 5) true = Except.ok [[3, 4, 5], [4, 5], [5]] ∧
    ((∀ i (hi : i < ([[3, 4, 5], [4, 5], [5]] : List (List Nat)).length), i < 1 →
        (([[3, 4, 5], [4, 5], [5]] : List (List Nat)).get ⟨i, hi⟩).length = 3) ∧
      (∀ j (hj : 1 + j < ([[3, 4, 5], [4, 5], [5]] : List (List Nat)).length),
        ([[3, 4, 5], [4, 5], [5]] : List (List Nat)).get ⟨1 + j, hj⟩ =
          ([3, 4, 5] : List Nat).drop ((1 + j) * 1) ∧
        (([[3, 4, 5], [4, 5], [5]] : List (List Nat)).get ⟨1 + j, hj⟩).length < 3 ∧
        0 < (([[3, 4, 5], [4, 5], [5]] : List (List Nat)).get ⟨1 + j, hj⟩).length) ∧
      (∀ j (hj1 : 1 + j < ([[3, 4, 5], [4, 5], [5]] : List (List Nat)).length)
          (hj2 : 1 + j + 1 < ([[3, 4, 5], [4, 5], [5]] : List (List Nat)).length),
        (([[3, 4, 5], [4, 5], [5]] : List (List Nat)).get ⟨1 + j + 1, hj2⟩).length <
          (([[3, 4, 5], [4, 5], [5]] : List (List Nat)).get ⟨1 + j, hj1⟩).length)) :=
  ⟨by decide, by decide, by decide, by decide, by decide, by rfl,
    C5_tail_structure [1, 2, 3, 4, 5, 6, 7, 8, 9, 10, 11, 12, 13, 14, 15, 16] 3 1 1
      (some 1) (some 2) (some 5) [3, 4, 5] [[3, 4, 5], [4, 5], [5]]
      (by decide) (by decide) (by decide) (by decide) (by decide) (by rfl)⟩

theorem pyWindow_none_none {α : Type} (it : List α) : pyWindow it none none = it := by
  simp [pyWindow, pySlice]

theorem pySlice_self {α : Type} (l : List α) (a : Nat) : pySlice l a a = [] := by
  unfold pySlice
  apply List.drop_eq_nil_of_le
  rw [List.length_take]
  omega

/-- Claim C6 counterexample: `chk_size = 0` is non-positive, yet with
`chk_step = 1` the chunker does not fail with any error at all — the indexable
branch returns output (four empty chunks on a three-element source), so the
claimed `InvalidParameter` failure does not happen. -/
theorem C6_counterexample :
    fixed_step_chunker_list [1, 2, 3] 0 (some 1) none none false =
      Except.ok [[], [], [], []] := rfl

/-- Claim C6 amended: the reference code performs no `InvalidParameter`
validation on non-positive `chk_size`/`chk_step`.  With `chk_size = 0` and
`chk_step = 1` the indexable branch returns `len(window) + 1` empty chunks
instead of failing; the only failure on non-positive parameters is a
`ZeroDivisionError` when the resolved `chk_step` is `0` in the indexable
branch (here: `chk_size = 0` with `chk_step` left unset, so that it defaults
to `chk_size = 0`). -/
theorem C6_amended {α : Type} (it : List α) (return_tail : Bool) :
    fixed_step_chunker_list it 0 (some 1) none none false =
      Except.ok (List.replicate (it.length + 1) ([] : List α)) ∧
    fixed_step_chunker_list it 0 none none none return_tail =
      Except.error PyErr.zeroDivisionError := by
  constructor
  · simp only [fixed_step_chunker_list, Option.getD_some]
    rw [if_neg (by omega)]
    rw [pyWindow_none_none]
    rw [n_full_toNat it.length 0 1 (by omega)]
    have hspec : nFullSpec it.length 0 1 = it.length + 1 := by
      unfold nFullSpec
      rw [if_pos (by omega)]
      simp
    rw [hspec]
    rw [if_neg (by simp)]
    rw [List.append_nil]
    congr 1
    unfold fullChunksList
    have hpt : ∀ i ∈ List.range (it.length + 1),
        pySlice it (i * 1) (i * 1 + 0) = (fun _ : Nat => ([] : List α)) i := by
      intro i _
      simp [pySlice_self]
    rw [List.map_congr_left hpt]
    simp [List.map_const]
  · simp only [fixed_step_chunker_list, Option.getD_none]
    simp

/-- Claim C7: when `chk_size` exceeds the window length, zero full chunks are
emitted; with `return_tail = true` the `j`-th emitted chunk is the window with
its first `j * chk_step` elements dropped — in particular the first chunk is
the entire window, starting at `start_at` — and a `j`-th chunk exists exactly
when dropping `j * chk_step` elements still leaves something: the chunks keep
shrinking by `chk_step` until nothing remains, and then stop. -/
theorem C7_oversized_chunk_size {α : Type} (it : List α) (chk_size : Nat)
    (chk_step start_at stop_at : Option Nat)
    (hsize : 0 < chk_size) (hstep : 0 < chk_step.getD chk_size)
    (hbig : (pyWindow it start_at stop_at).length < chk_size)
    (out : List (List α))
    (hrun : fixed_step_chunker_list it chk_size chk_step start_at stop_at true =
      Except.ok out) :
    out.countP (fun c => c.length == chk_size) = 0 ∧
    (∀ j (hj : j < out.length),
      out.get ⟨j, hj⟩ =
        (pyWindow it start_at stop_at).drop (j * (chk_step.getD chk_size))) ∧
    (∀ j : Nat, j < out.length ↔
      j * (chk_step.getD chk_size) < (pyWindow it start_at stop_at).length) := by
  rw [fixed_step_chunker_list_run it chk_size chk_step start_at stop_at true hsize hstep]
    at hrun
  have hout : out = allChunksU chk_size (chk_step.getD chk_size) true
      (pyWindow it start_at stop_at) := (Except.ok.inj hrun).symm
  subst hout
  refine ⟨?_, ?_, ?_⟩
  · rw [allChunksU_countP chk_size (chk_step.getD chk_size) hsize hstep true
      (pyWindow it start_at stop_at).length (pyWindow it start_at stop_at) (le_refl _)]
    unfold nFullSpec
    rw [if_neg (by omega)]
  · intro j hj
    rw [allChunksU_get chk_size (chk_step.getD chk_size) hsize hstep true _ j hj]
    apply List.take_of_length_le
    rw [List.length_drop]
    omega
  · intro j
    exact allChunksU_true_length_iff chk_size (chk_step.getD chk_size) hsize hstep j
      (pyWindow it start_at stop_at)

theorem C7_witness :
    0 < 30 ∧ 0 < (some 3 : Option Nat).getD 30 ∧
    (pyWindow [1, 2, 3, 4, 5, 6, 7, 8, 9, 10, 11, 12, 13, 14, 15, 16] none none).length < 30 ∧
    fixed_step_chunker_list [1, 2, 3, 4, 5, 6, 7, 8, 9, 10, 11, 12, 13, 14, 15, 16] 30 (some 3)
      none none true = Except.ok
        [[1, 2, 3, 4, 5, 6, 7, 8, 9, 10, 11, 12, 13, 14, 15, 16],
         [4, 5, 6, 7, 8, 9, 10, 11, 12, 13, 14, 15, 16],
         [7, 8, 9, 10, 11, 12, 13, 14, 15, 16],
         [10, 11, 12, 13, 14, 15, 16], [13, 14, 15, 16], [16]] ∧
    (([[1, 2, 3, 4, 5, 6, 7, 8, 9, 10, 11, 12, 13, 14, 15, 16],
       [4, 5, 6, 7, 8, 9, 10, 11, 12, 13, 14, 15, 16],
       [7, 8, 9, 10, 11, 12, 13, 14, 15, 16],
       [10, 11, 12, 13, 14, 15, 16], [13, 14, 15, 16], [16]] : List (List Nat)).countP
        (fun c => c.length == 30) = 0 ∧
      (∀ j (hj : j < ([[1, 2, 3, 4, 5, 6, 7, 8, 9, 10, 11, 12, 13, 14, 15, 16],
         [4, 5, 6, 7, 8, 9, 10, 11, 12, 13, 14, 15, 16],
         [7, 8, 9, 10, 11, 12, 13, 14, 15, 16],
         [10, 11, 12, 13, 14, 15, 16], [13, 14, 15, 16], [16]] : List (List Nat)).length),
        ([[1, 2, 3, 4, 5, 6, 7, 8, 9, 10, 11, 12, 13, 14, 15, 16],
         [4, 5, 6, 7, 8, 9, 10, 11, 12, 13, 14, 15, 16],
         [7, 8, 9, 10, 11, 12, 13, 14, 15, 16],
         [10, 11, 12, 13, 14, 15, 16], [13, 14, 15, 16], [16]] : List (List Nat)).get ⟨j, hj⟩ =
          (pyWindow [1, 2, 3, 4, 5, 6, 7, 8, 9, 10, 11, 12, 13, 14, 15, 16] none none).drop
            (j * (some 3 : Option Nat).getD 30)) ∧
      (∀ j : Nat, j < ([[1, 2, 3, 4, 5, 6, 7, 8, 9, 10, 11, 12, 13, 14, 15, 16],
         [4, 5, 6, 7, 8, 9, 10, 11, 12, 13, 14, 15, 16],
         [7, 8, 9, 10, 11, 12, 13, 14, 15, 16],
         [10, 11, 12, 13, 14, 15, 16], [13, 14, 15, 16], [16]] : List (List Nat)).length ↔
        j * (some 3 : Option Nat).getD 30 <
          (pyWindow [1, 2, 3, 4, 5, 6, 7, 8, 9, 10, 11, 12, 13, 14, 15, 16] none
            none).length)) :=
  ⟨by decide, by decide, by decide, by rfl,
    C7_oversized_chunk_size [1, 2, 3, 4, 5, 6, 7, 8, 9, 10, 11, 12, 13, 14, 15, 16] 30 (some 3)
      none none (by decide) (by decide) (by decide)
      [[1, 2, 3, 4, 5, 6, 7, 8, 9, 10, 11, 12, 13, 14, 15, 16],
       [4, 5, 6, 7, 8, 9, 10, 11, 12, 13, 14, 15, 16],
       [7, 8, 9, 10, 11, 12, 13, 14, 15, 16],
       [10, 11, 12, 13, 14, 15, 16], [13, 14, 15, 16], [16]] (by rfl)⟩

/-- Claim C8: on the source `[1, ..., 16]` with `chk_size = 3`, `chk_step = 1`,
`start_at = 2`, `stop_at = 5`, both branches return `[[3,4,5],[4,5],[5]]` with
`return_tail = true` and `[[3,4,5]]` with `return_tail = false`. -/
theorem C8_concrete_example :
    fixed_step_chunker_list [1, 2, 3, 4, 5, 6, 7, 8, 9, 10, 11, 12, 13, 14, 15, 16] 3 (some 1)
        (some 2) (some 5) true = Except.ok [[3, 4, 5], [4, 5], [5]] ∧
    fixed_step_chunker_iter [1, 2, 3, 4, 5, 6, 7, 8, 9, 10, 11, 12, 13, 14, 15, 16] 3 (some 1)
        (some 2) (some 5) true = [[3, 4, 5], [4, 5], [5]] ∧
    fixed_step_chunker_list [1, 2, 3, 4, 5, 6, 7, 8, 9, 10, 11, 12, 13, 14, 15, 16] 3 (some 1)
        (some 2) (some 5) false = Except.ok [[3, 4, 5]] ∧
    fixed_step_chunker_iter [1, 2, 3, 4, 5, 6, 7, 8, 9, 10, 11, 12, 13, 14, 15, 16] 3 (some 1)
        (some 2) (some 5) false = [[3, 4, 5]] :=
  ⟨rfl, rfl, rfl, rfl⟩

/-- Claim C9: every chunk in the output is non-empty, and when the resolved
window `[start_at, stop_at)` is empty the output is the empty sequence, even
with `return_tail = true`. -/
theorem C9_chunks_nonempty {α : Type} (it : List α) (chk_size : Nat)
    (chk_step start_at stop_at : Option Nat) (return_tail : Bool)
    (hsize : 0 < chk_size) (hstep : 0 < chk_step.getD chk_size)
    (out : List (List α))
    (hrun : fixed_step_chunker_list it chk_size chk_step start_at stop_at return_tail =
      Except.ok out) :
    (∀ c ∈ out, c ≠ []) ∧ (pyWindow it start_at stop_at = [] → out = []) := by
  rw [fixed_step_chunker_list_run it chk_size chk_step start_at stop_at return_tail hsize hstep]
    at hrun
  have hout : out = allChunksU chk_size (chk_step.getD chk_size) return_tail
      (pyWindow it start_at stop_at) := (Except.ok.inj hrun).symm
  subst hout
  constructor
  · intro c hc
    rw [List.mem_iff_get] at hc
    obtain ⟨⟨n, hn⟩, hget⟩ := hc
    rw [allChunksU_get chk_size (chk_step.getD chk_size) hsize hstep return_tail _ n hn]
      at hget
    rw [← hget]
    apply List.length_pos.mp
    rw [List.length_take, List.length_drop]
    cases return_tail with
    | true =>
      have hb := (allChunksU_true_length_iff chk_size (chk_step.getD chk_size) hsize hstep n
        (pyWindow it start_at stop_at)).mp hn
      omega
    | false =>
      have hb := (allChunksU_false_length_iff chk_size (chk_step.getD chk_size) hsize hstep n
        (pyWindow it start_at stop_at)).mp hn
      omega
  · intro hw0
    rw [hw0]
    exact allChunksU_nil chk_size (chk_step.getD chk_size) hsize return_tail

theorem C9_witness :
    0 < 3 ∧ 0 < (some 1 : Option Nat).getD 3 ∧
    fixed_step_chunker_list [1, 2, 3, 4, 5, 6, 7, 8, 9, 10, 11, 12, 13, 14, 15, 16] 3 (some 1)
      (some 2) (some 5) true = Except.ok [[3, 4, 5], [4, 5], [5]] ∧
    ((∀ c ∈ ([[3, 4, 5], [4, 5], [5]] : List (List Nat)), c ≠ []) ∧
      (pyWindow [1, 2, 3, 4, 5, 6, 7, 8, 9, 10, 11, 12, 13, 14, 15, 16] (some 2) (some 5) =
          [] → ([[3, 4, 5], [4, 5], [5]] : List (List Nat)) = [])) :=
  ⟨by decide, by decide, by rfl,
    C9_chunks_nonempty [1, 2, 3, 4, 5, 6, 7, 8, 9, 10, 11, 12, 13, 14, 15, 16] 3 (some 1)
      (some 2) (some 5) true (by decide) (by decide) [[3, 4, 5], [4, 5], [5]] (by rfl)⟩

/-- Claim C10: with `chk_step ≥ chk_size` and `return_tail = true`, at most one
tail chunk (a chunk of length strictly below `chk_size`) is emitted. -/
theorem C10_spaced_single_tail {α : Type} (it : List α) (chk_size : Nat)
    (chk_step start_at stop_at : Option Nat)
    (hsize : 0 < chk_size) (hge : chk_size ≤ chk_step.getD chk_size)
    (out : List (List α))
    (hrun : fixed_step_chunker_list it chk_size chk_step start_at stop_at true =
      Except.ok out) :
    out.countP (fun c => decide (c.length < chk_size)) ≤ 1 := by
  have hstep : 0 < chk_step.getD chk_size := by omega
  rw [fixed_step_chunker_list_run it chk_size chk_step start_at stop_at true hsize hstep]
    at hrun
  have hout : out = allChunksU chk_size (chk_step.getD chk_size) true
      (pyWindow it start_at stop_at) := (Except.ok.inj hrun).symm
  have hover := lt_nFullSpec_mul (pyWindow it start_at stop_at).length chk_size
    (chk_step.getD chk_size) hstep
  have hlen : out.length ≤
      nFullSpec (pyWindow it start_at stop_at).length chk_size (chk_step.getD chk_size) + 1 := by
    by_contra hcon
    push_neg at hcon
    have hb := (allChunksU_true_length_iff chk_size (chk_step.getD chk_size) hsize hstep
      (nFullSpec (pyWindow it start_at stop_at).length chk_size (chk_step.getD chk_size) + 1)
      (pyWindow it start_at stop_at)).mp (by rw [← hout]; omega)
    rw [Nat.succ_mul] at hb
    omega
  have hfull : ∀ (i : Nat) (hi2 : i < out.length),
      i < nFullSpec (pyWindow it start_at stop_at).length chk_size (chk_step.getD chk_size) →
      (out.get ⟨i, hi2⟩).length = chk_size := by
    intro i hi2 hiN
    have hNpos : 0 < nFullSpec (pyWindow it start_at stop_at).length chk_size
        (chk_step.getD chk_size) := by omega
    have hlast := nFullSpec_last_le (pyWindow it start_at stop_at).length chk_size
      (chk_step.getD chk_size) hNpos
    have hmono : i * (chk_step.getD chk_size) ≤
        (nFullSpec (pyWindow it start_at stop_at).length chk_size (chk_step.getD chk_size) - 1) *
          (chk_step.getD chk_size) :=
      Nat.mul_le_mul_right _ (by omega)
    subst hout
    rw [allChunksU_get chk_size (chk_step.getD chk_size) hsize hstep true _ i hi2]
    rw [List.length_take, List.length_drop]
    omega
  rw [← List.take_append_drop
    (nFullSpec (pyWindow it start_at stop_at).length chk_size (chk_step.getD chk_size)) out]
  rw [List.countP_append]
  have h1 : (out.take (nFullSpec (pyWindow it start_at stop_at).length chk_size
      (chk_step.getD chk_size))).countP (fun c => decide (c.length < chk_size)) = 0 := by
    rw [List.countP_eq_zero]
    intro c hc
    rw [List.mem_iff_get] at hc
    obtain ⟨⟨i, hi⟩, hget⟩ := hc
    have hi2 : i < out.length := by
      rw [List.length_take] at hi
      omega
    have hiN : i < nFullSpec (pyWindow it start_at stop_at).length chk_size
        (chk_step.getD chk_size) := by
      rw [List.length_take] at hi
      omega
    have hsame : (out.take (nFullSpec (pyWindow it start_at stop_at).length chk_size
        (chk_step.getD chk_size))).get ⟨i, hi⟩ = out.get ⟨i, hi2⟩ := by
      rw [List.get_eq_getElem, List.get_eq_getElem]
      exact List.getElem_take out
    rw [← hget, hsame, decide_eq_true_eq]
    rw [hfull i hi2 hiN]
    omega
  have h2 : (out.drop (nFullSpec (pyWindow it start_at stop_at).length chk_size
        (chk_step.getD chk_size))).countP (fun c => decide (c.length < chk_size)) ≤
      (out.drop (nFullSpec (pyWindow it start_at stop_at).length chk_size
        (chk_step.getD chk_size))).length :=
    List.countP_le_length _
  rw [List.length_drop] at h2
  omega

theorem C10_witness :
    0 < 3 ∧ (3 : Nat) ≤ (some 4 : Option Nat).getD 3 ∧
    fixed_step_chunker_list [1, 2, 3, 4, 5, 6, 7, 8, 9, 10, 11, 12, 13, 14, 15, 16, 17, 18] 3
      (some 4) none none true =
      Except.ok [[1, 2, 3], [5, 6, 7], [9, 10, 11], [13, 14, 15], [17, 18]] ∧
    ([[1, 2, 3], [5, 6, 7], [9, 10, 11], [13, 14, 15], [17, 18]] : List (List Nat)).countP
      (fun c => decide (c.length < 3)) ≤ 1 :=
  ⟨by decide, by decide, by rfl,
    C10_spaced_single_tail [1, 2, 3, 4, 5, 6, 7, 8, 9, 10, 11, 12, 13, 14, 15, 16, 17, 18] 3
      (some 4) none none (by decide) (by decide)
      [[1, 2, 3], [5, 6, 7], [9, 10, 11], [13, 14, 15], [17, 18]] (by rfl)⟩

end Oplot
